import Mathlib

/-!
A verification development for the distribution-constructor module
`dit/distconst.py` of the `dit` information-theory library: the functions
`mixture_distribution`, `mixture_distribution2`, `random_scalar_distribution`,
`uniform_scalar_distribution`, `uniform_distribution`, `insert_rvf` and the
`RVFunctions` helper class.

Embedding conventions:

* A distribution is a finite map from outcomes to probability masses, kept as
  two positionally aligned lists together with a base tag, mirroring the
  `outcomes`, `pmf` and base attributes of the external `Distribution` /
  `ScalarDistribution` containers.
* Probability values are rationals.  A pmf entry is represented by the linear
  interpretation of the stored value: for a linear-base distribution that is
  the stored value itself; for a log-base distribution the stored value is the
  logarithm of the represented probability.  Under this convention the operator
  adapter's `mult` and `add_reduce` act as multiplication and summation of
  rationals in every base: in linear base they are multiplication and summation
  of the stored values, and in log base they are stored-value addition and
  log-sum-exp, which are exactly multiplication and summation of the
  represented linear values.  So the adapter needs no base dispatch in the
  embedding.  The one place where the stored representation leaks into
  `distconst.py` is the Python literal `0` supplied for outcomes absent from an
  input in the `merge` branch of `mixture_distribution`; its linear
  interpretation is base-dependent and is modelled by `litZeroLinear`.
* Fallible code returns `Except DitError`.
* Python `set` iteration order is unspecified; the outcome set built by
  `mixture_distribution` is modelled by `List.dedup` of the concatenation, and
  the theorems about it only use set-level facts (membership and the mass at
  each outcome), never a particular order.
-/

/-- The numeric base tag of a distribution: linear probabilities, or logarithms
with a given base (the `base` attribute of a `dit` distribution). -/
inductive Base where
  | linear : Base
  | log : ℚ → Base
deriving DecidableEq

/-- Error outcomes of the embedded functions, mirroring the exceptions raised
by the source: `ditException`, `InvalidNormalization`, `InvalidProbability`,
`IncompatibleOutcome`, `ValueError`, `IndexError`, `ZeroDivisionError`,
`TypeError`, and `NotImplementedError` — the last is raised by
`RVFunctions.from_partition` and is called `AlphabetExhausted` in the design
documents. -/
inductive DitError where
  | ditException
  | invalidNormalization
  | invalidProbability
  | incompatibleOutcome
  | valueError
  | indexError
  | zeroDivisionError
  | typeError
  | alphabetExhausted
deriving DecidableEq

instance {ε α : Type} [DecidableEq ε] [DecidableEq α] : DecidableEq (Except ε α)
  | .error a, .error b =>
    if h : a = b then .isTrue (by rw [h]) else .isFalse (by simp [h])
  | .error _, .ok _ => .isFalse (by simp)
  | .ok _, .error _ => .isFalse (by simp)
  | .ok a, .ok b =>
    if h : a = b then .isTrue (by rw [h]) else .isFalse (by simp [h])

/-- A distribution: positionally aligned outcome and pmf lists plus a base tag.
The pmf entries are the linear interpretations of the stored values (see the
module docstring). -/
structure Distribution (α : Type) where
  outcomes : List α
  pmf : List ℚ
  base : Base
deriving DecidableEq

/-- `d[o]` (`Distribution.__getitem__`): the pmf entry at the position of
outcome `o` in `d.outcomes`.  The value for an absent outcome defaults to 0
here; the source raises in that case, and every use below guards membership
first. -/
def Distribution.mass {α : Type} [DecidableEq α] (d : Distribution α) (o : α) : ℚ :=
  d.pmf.getD (List.indexOf o d.outcomes) 0

/-- The data-model invariant of a distribution (spec §3): `outcomes` and `pmf`
are positionally aligned, outcomes are unique, every entry is a valid
probability, and the pmf is normalized (in linear interpretation, which is how
the pmf is represented here). -/
def Distribution.Valid {α : Type} [DecidableEq α] (d : Distribution α) : Prop :=
  d.outcomes.Nodup ∧ d.pmf.length = d.outcomes.length ∧ d.pmf.sum = 1 ∧
    ∀ p ∈ d.pmf, 0 ≤ p

instance {α : Type} [DecidableEq α] (d : Distribution α) : Decidable d.Valid :=
  inferInstanceAs (Decidable (d.outcomes.Nodup ∧ d.pmf.length = d.outcomes.length ∧
    d.pmf.sum = 1 ∧ ∀ p ∈ d.pmf, 0 ≤ p))

/-- Modelled from the spec: the external `Distribution` / `ScalarDistribution`
constructor (§6), which validates the data-model invariant (§3) — positional
alignment of `outcomes` and `pmf`, no duplicate outcomes, entries that are
valid probabilities, normalization to one — and raises on violation.  The
container classes themselves live outside this module. -/
def mkDistribution {α : Type} [DecidableEq α] (outcomes : List α) (pmf : List ℚ)
    (base : Base) : Except DitError (Distribution α) :=
  if pmf.length ≠ outcomes.length then .error .ditException
  else if ¬ outcomes.Nodup then .error .ditException
  else if ¬ (∀ p ∈ pmf, 0 ≤ p) then .error .invalidProbability
  else if pmf.sum ≠ 1 then .error .invalidNormalization
  else .ok ⟨outcomes, pmf, base⟩

/-- Modelled from the spec: `validate_pmf(weights, ops)` (§4.1, §7) checks that
a weight vector is a valid pmf under the adapter: every entry a valid
probability (`InvalidProbability`) and normalization to one
(`InvalidNormalization`). -/
def validate_pmf (pmf : List ℚ) : Except DitError Unit :=
  if ¬ (∀ p ∈ pmf, 0 ≤ p) then .error .invalidProbability
  else if pmf.sum ≠ 1 then .error .invalidNormalization
  else .ok ()

/-- The linear interpretation, under each base, of the Python literal `0` that
`mixture_distribution` supplies for an outcome absent from an input when
`merge` is true: in linear base the stored value 0 is probability 0, while in a
log base the stored value 0 represents `b ^ 0 = 1`. -/
def litZeroLinear : Base → ℚ
  | .linear => 0
  | .log _ => 1

/-- `set().union(*[d.outcomes for d in dists])` (source line 84): the union of
the input outcome sets.  Python set iteration order is unspecified; the union
is modelled as the deduplicated concatenation. -/
def unionOutcomes {α : Type} [DecidableEq α] (dists : List (Distribution α)) : List α :=
  (dists.flatMap (fun d => d.outcomes)).dedup

/-- The success-path value of `mixture_distribution` at one outcome:
`add_reduce([mult(w, d[o]) for w, d in zip(weights, dists)])` when every input
contains `o`. -/
def mixVal {α : Type} [DecidableEq α] (weights : List ℚ) (dists : List (Distribution α))
    (o : α) : ℚ :=
  ((weights.zip dists).map (fun wd => wd.1 * wd.2.mass o)).sum

/-- `mixture_distribution(dists, weights, merge)` (source lines 32-87): checks
the lengths, reads `dists[0].ops` (an `IndexError` on an empty list), validates
the weights, forms the union of the outcome sets, and computes at each outcome
`o` the value `add_reduce([mult(w, d[o]) for w, d in zip(weights, dists)])`,
where in the `merge` branch an input without `o` contributes the literal `0`
and in the other branch `d[o]` raises `IncompatibleOutcome` for an absent
outcome.  The result is built with `dists[0].__class__` at base
`ops.get_base() = dists[0].base`. -/
def mixture_distribution {α : Type} [DecidableEq α] (dists : List (Distribution α))
    (weights : List ℚ) (merge : Bool) : Except DitError (Distribution α) :=
  if dists.length ≠ weights.length then .error .ditException
  else
    match dists with
    | [] => .error .indexError
    | d0 :: _ =>
      match validate_pmf weights with
      | .error e => .error e
      | .ok _ =>
        let outcomes := unionOutcomes dists
        if merge then
          let pmf := outcomes.map (fun o =>
            ((weights.zip dists).map (fun wd =>
              if o ∈ wd.2.outcomes then wd.1 * wd.2.mass o
              else litZeroLinear d0.base)).sum)
          mkDistribution outcomes pmf d0.base
        else
          match outcomes.mapM (fun o =>
              (weights.zip dists).mapM (fun wd =>
                if o ∈ wd.2.outcomes then Except.ok (wd.1 * wd.2.mass o)
                else Except.error DitError.incompatibleOutcome)) with
          | .error e => .error e
          | .ok vals => mkDistribution outcomes (vals.map List.sum) d0.base

/-- `mixture_distribution2(dists, weights)` (source lines 89-147): checks the
lengths, checks that all pmf vectors have the same shape (`ValueError`
otherwise; an empty `dists` also fails here because the set of shapes is
empty), validates the weights, then starts from a copy of `dists[0]` scaled in
place by `weights[0]` and accumulates `mult(dist.pmf, weight)` in place for the
remaining pairs.  The result keeps `dists[0]`'s outcomes and base and is not
re-validated. -/
def mixture_distribution2 {α : Type} [DecidableEq α] (dists : List (Distribution α))
    (weights : List ℚ) : Except DitError (Distribution α) :=
  if dists.length ≠ weights.length then .error .ditException
  else if ((dists.map (fun d => d.pmf.length)).dedup).length ≠ 1 then
    .error .valueError
  else
    match dists, weights with
    | d0 :: rest, w0 :: wrest =>
      match validate_pmf (w0 :: wrest) with
      | .error e => .error e
      | .ok _ =>
        .ok ⟨d0.outcomes,
          (rest.zip wrest).foldl
            (fun acc dw =>
              List.zipWith (· + ·) acc (dw.1.pmf.map (fun p => p * dw.2)))
            (d0.pmf.map (fun p => w0 * p)),
          d0.base⟩
    | _, _ => .error .indexError

/-- A store of pmf arrays: `mixture_distribution2` mutates numpy arrays in
place, so for the frame claim the arrays live in an explicit store addressed by
index and a distribution holds a reference to its array. -/
abbrev Store : Type := List (List ℚ)

/-- A distribution whose pmf array lives in a `Store`. -/
structure DistRef (α : Type) where
  outcomes : List α
  pmfRef : Nat
  base : Base

/-- `mixture_distribution2` once more (source lines 89-147), with the pmf
arrays in an explicit store so that the in-place steps are visible:
`dists[0].copy()` allocates a fresh array (a copy of `dists[0]`'s) at a fresh
reference, `ops.mult_inplace(mix.pmf, weights[0])` overwrites that array with
its pointwise scaling, and each `ops.add_inplace(mix.pmf, ops.mult(dist.pmf,
weight))` overwrites it with the pointwise sum (`ops.mult(dist.pmf, weight)`
allocates a temporary, mutating nothing).  Error paths return the store
unchanged. -/
def mixture_distribution2Ref {α : Type} (dists : List (DistRef α))
    (weights : List ℚ) (σ : Store) : Except DitError (DistRef α) × Store :=
  if dists.length ≠ weights.length then (.error .ditException, σ)
  else if ((dists.map (fun d => (σ.getD d.pmfRef []).length)).dedup).length ≠ 1 then
    (.error .valueError, σ)
  else
    match dists, weights with
    | d0 :: rest, w0 :: wrest =>
      match validate_pmf (w0 :: wrest) with
      | .error e => (.error e, σ)
      | .ok _ =>
        let r := σ.length
        let σ₁ := σ ++ [σ.getD d0.pmfRef []]
        let σ₂ := σ₁.set r ((σ₁.getD r []).map (fun p => w0 * p))
        let σ₃ := (rest.zip wrest).foldl
          (fun s dw =>
            s.set r (List.zipWith (· + ·) (s.getD r [])
              ((s.getD dw.1.pmfRef []).map (fun p => p * dw.2))))
          σ₂
        (.ok ⟨d0.outcomes, r, d0.base⟩, σ₃)
    | _, _ => (.error .indexError, σ)

/-- Python values appearing as scalar outcomes in the claims: integers and
strings.  Outcome objects are dynamically typed; these two classes are the ones
the claims exercise. -/
inductive PyVal where
  | int : Int → PyVal
  | str : String → PyVal
deriving DecidableEq

/-- The `n` argument of `uniform_scalar_distribution` and
`random_scalar_distribution`: an integer count, or an explicit outcome list
(the source dispatches by attempting `len(n)`). -/
inductive NArg where
  | count : Nat → NArg
  | outcomeList : List PyVal → NArg

/-- `uniform_scalar_distribution(n)` (source lines 327-353): for an integer the
outcomes are `tuple(range(n))`, for a list the list itself; the pmf is
`[1/nOutcomes] * nOutcomes` at linear base.  For zero outcomes the Python
division `1/nOutcomes` raises `ZeroDivisionError` before the constructor
runs. -/
def uniform_scalar_distribution (n : NArg) : Except DitError (Distribution PyVal) :=
  match n with
  | .count k =>
    if k = 0 then .error .zeroDivisionError
    else
      mkDistribution ((List.range k).map (fun i => PyVal.int i))
        (List.replicate k (1 / (k : ℚ))) .linear
  | .outcomeList xs =>
    if xs.length = 0 then .error .zeroDivisionError
    else
      mkDistribution xs (List.replicate xs.length (1 / (xs.length : ℚ))) .linear

/-- `random_scalar_distribution(n, alpha, prng)` (source lines 181-218): takes
`nOutcomes = len(n)` when `n` is sized and `n` itself otherwise, builds
`uniform_scalar_distribution(nOutcomes)` — note: the integer count, not `n` —
then replaces its pmf with one Dirichlet draw.  The external random source is a
parameter: `prng` maps the concentration vector to the drawn pmf (spec §6).
When `alpha` is `None` it defaults to `np.ones(len(d))`; otherwise its length
must be `nOutcomes` (`ditException`). -/
def random_scalar_distribution (n : NArg) (alpha : Option (List ℚ))
    (prng : List ℚ → List ℚ) : Except DitError (Distribution PyVal) :=
  let nOutcomes : Nat := match n with | .count k => k | .outcomeList xs => xs.length
  match uniform_scalar_distribution (.count nOutcomes) with
  | .error e => .error e
  | .ok d =>
    match alpha with
    | none => .ok { d with pmf := prng (List.replicate d.outcomes.length 1) }
    | some a =>
      if a.length ≠ nOutcomes then .error .ditException
      else .ok { d with pmf := prng a }

/-- The `alphabet_size` argument of `uniform_distribution`: an integer size, or
an explicit list of per-position alphabets.  Symbols are specialized to
integers, the type the integer branch produces. -/
inductive AlphaArg where
  | size : Int → AlphaArg
  | alphabets : List (List Int) → AlphaArg

/-- `tuple(range(m))`: empty for non-positive `m`. -/
def intRange (m : Int) : List Int := (List.range m.toNat).map (fun (i : Nat) => (i : Int))

/-- `itertools.product(*alphabet)`: the Cartesian product in product order, the
rightmost position varying fastest. -/
def listProduct {σ : Type} : List (List σ) → List (List σ)
  | [] => [[]]
  | xs :: rest => xs.flatMap (fun x => (listProduct rest).map (fun t => x :: t))

/-- The tail of `uniform_distribution` once the per-position alphabet list is
fixed: `Z = np.prod(list(map(len, alphabet)))`, `pmf = [1/Z] * Z`, `outcomes =
tuple(product(*alphabet))`, then the `Distribution` constructor.  When `Z = 0`
the numpy scalar division `1/Z` yields `inf` (with a warning, not an
exception), the pmf list `[1/Z] * 0` is empty, and it is the constructor that
raises. -/
def uniformFromAlphabet (alphabet : List (List Int)) : Except DitError (Distribution (List Int)) :=
  let Z := (alphabet.map List.length).prod
  mkDistribution (listProduct alphabet) (List.replicate Z (1 / (Z : ℚ))) .linear

/-- `uniform_distribution(outcome_length, alphabet_size)` (source lines
355-415): an integer `alphabet_size` gives every position the alphabet
`tuple(range(alphabet_size))`; a list of one alphabet is broadcast to all
positions; otherwise the list's length must equal `outcome_length`
(`TypeError`, called `ArityMismatch` in the design documents). -/
def uniform_distribution (outcome_length : Nat) (alphabet_size : AlphaArg) :
    Except DitError (Distribution (List Int)) :=
  match alphabet_size with
  | .alphabets als =>
    if als.length = 1 then
      uniformFromAlphabet (List.replicate outcome_length (als.getD 0 []))
    else if als.length ≠ outcome_length then .error .typeError
    else uniformFromAlphabet als
  | .size m =>
    uniformFromAlphabet (List.replicate outcome_length (intRange m))

/-- The `func` argument of `insert_rvf`: a single function or a list of
functions (the source dispatches by probing `func[0]`). -/
inductive FuncArg (σ : Type) where
  | one : (List σ → List σ) → FuncArg σ
  | many : List (List σ → List σ) → FuncArg σ

/-- The function list `funcs` that `insert_rvf` works through. -/
def funcList {σ : Type} : FuncArg σ → List (List σ → List σ)
  | .one g => [g]
  | .many gs => gs

/-- Python `zip(*cols)`: the truncating transpose, used by `insert_rvf` through
`zip(*partial_outcomes)`.  With no columns `zip()` yields nothing; otherwise it
stops at the length of the shortest column. -/
def zipStar {β : Type} (cols : List (List β)) : List (List β) :=
  match cols with
  | [] => []
  | c :: cs =>
    (List.range ((cs.map List.length).foldl min c.length)).map
      (fun k => cols.filterMap (fun col => col.get? k))

/-- `insert_rvf(d, func, index)` (source lines 417-473): probes `func[0]` to
decide whether one function or several were given (an empty list raises
`IndexError`, which the `except TypeError` clause does not catch), applies
every function to every outcome, flattens the per-outcome contributions with
`d._outcome_ctor` (the identity once an outcome is a symbol list), concatenates
each composite tail onto the original outcome with `old + new`, and builds a
`Distribution` from the extended outcomes, `d.pmf.copy()` and `d.get_base()`.
The `index` parameter is accepted and never read: the body always appends. -/
def insert_rvf {σ : Type} [DecidableEq σ] (d : Distribution (List σ)) (func : FuncArg σ)
    (index : Int) : Except DitError (Distribution (List σ)) :=
  match func with
  | .many [] => .error .indexError
  | _ =>
    let funcs := funcList func
    let cols := funcs.map (fun f => d.outcomes.map f)
    let tails := (zipStar cols).map (fun row => row.flatten)
    let outcomes := List.zipWith (fun old new => old ++ new) d.outcomes tails
    mkDistribution outcomes d.pmf d.base

/-- The fixed rendering alphabet built by `RVFunctions.from_partition`: digits,
then the lowercase letters, then their uppercase forms. -/
def partitionAlphabet : List Char :=
  "0123456789abcdefghijklmnopqrstuvwxyzABCDEFGHIJKLMNOPQRSTUVWXYZ".toList

/-- `d._outcome_ctor` for string-class outcomes, with strings modelled as
`List Char`: `''.join`, the concatenation of a list of strings (modelled from
the spec's outcome constructor accessor, §6). -/
def strCtor (parts : List (List Char)) : List Char := parts.flatten

/-- One Python dict assignment `m[k] = v`, on a dictionary modelled as a lookup
function: a later assignment to the same key overrides an earlier one. -/
def dictInsert {α β : Type} [DecidableEq α] (m : α → Option β) (k : α) (v : β) :
    α → Option β :=
  fun x => if x = k then some v else m x

/-- `RVFunctions.from_partition(partition)` (source lines 620-679), specialized
to an instance whose reference distribution has string-class outcomes — the
case the claim is about.  With `n = len(partition)` groups it raises
(`AlphabetExhausted`) when `n` exceeds the 62-symbol alphabet; otherwise group
`i`'s outcomes are mapped to the 1-character string `alphabet[:n][i]`, keyed by
`ctor([outcome])`.  The result is `from_mapping(mapping, force=True)`; for
string values the force probe `list(map(ctor, mapping.values()))` succeeds and
leaves the mapping unchanged, and the returned callable looks its argument up
in the dict (`KeyError`, modelled as `none`, when absent). -/
def RVFunctions.from_partition_str (partition : List (List (List Char))) :
    Except DitError (List Char → Option (List Char)) :=
  let n := partition.length
  if n > partitionAlphabet.length then .error .alphabetExhausted
  else
    let vals := (partitionAlphabet.take n).map (fun c => [c])
    let mapping := partition.enum.foldl
      (fun m p => p.2.foldl (fun m' o => dictInsert m' (strCtor [o]) (vals.getD p.1 [])) m)
      (fun _ => none)
    .ok mapping

/-- `int(h, 16)` on a single character: its hexadecimal digit value, or `none`
(Python `ValueError`) for a character that is not a hex digit. -/
def hexDigitVal (c : Char) : Option Nat :=
  if '0' ≤ c ∧ c ≤ '9' then some (c.toNat - '0'.toNat)
  else if 'a' ≤ c ∧ c ≤ 'f' then some (10 + (c.toNat - 'a'.toNat))
  else if 'A' ≤ c ∧ c ≤ 'F' then some (10 + (c.toNat - 'A'.toNat))
  else none

/-- The Python binary format with minimum width used by `from_hexes`: the
binary expansion of `v`, zero-padded on the left to width `L` (and wider than
`L` when `v` needs more than `L` bits, exactly as the Python format behaves). -/
def paddedBin (L v : Nat) : List Char :=
  let s := Nat.toDigits 2 v
  List.replicate (L - s.length) '0' ++ s

/-- `int(c)` on a decimal-digit character, as used by `tuple(map(int, o))` on
the `'0'`/`'1'` strings produced by the binary format. -/
def digitVal (c : Char) : Int := (c.toNat : Int) - ('0'.toNat : Int)

/-- `RVFunctions.from_hexes(hexes)` (source lines 681-735) for a string-outcome
instance with reference outcome length `L`: each character of `hexes` is read
in base 16 and formatted as an `L`-wide zero-padded binary string; the returned
callable gives `str(int(outcome in outcomes))`, i.e. the 1-character string
`'1'` exactly on the decoded patterns and `'0'` elsewhere. -/
def RVFunctions.from_hexes_str (L : Nat) (hexes : List Char) :
    Except DitError (List Char → List Char) :=
  match hexes.mapM hexDigitVal with
  | none => .error .valueError
  | some vs =>
    let outcomes := vs.map (paddedBin L)
    .ok (fun o => if o ∈ outcomes then ['1'] else ['0'])

/-- `RVFunctions.from_hexes(hexes)` for an integer-tuple-outcome instance: the
decoded patterns are converted with `tuple(map(int, o))` and the callable
returns the 1-tuple `(int(outcome in outcomes),)`. -/
def RVFunctions.from_hexes_int (L : Nat) (hexes : List Char) :
    Except DitError (List Int → List Int) :=
  match hexes.mapM hexDigitVal with
  | none => .error .valueError
  | some vs =>
    let outcomes := (vs.map (paddedBin L)).map (fun s => s.map digitVal)
    .ok (fun o => if o ∈ outcomes then [(1 : Int)] else [(0 : Int)])

/-! ### Helper lemmas -/

theorem validate_pmf_eq_ok {w : List ℚ} (h1 : ∀ p ∈ w, 0 ≤ p) (h2 : w.sum = 1) :
    validate_pmf w = .ok () := by
  unfold validate_pmf
  rw [if_neg (by simpa using h1), if_neg (by simp [h2])]

theorem mkDistribution_eq_ok {α : Type} [DecidableEq α] {outcomes : List α}
    {pmf : List ℚ} {base : Base} (h1 : pmf.length = outcomes.length)
    (h2 : outcomes.Nodup) (h3 : ∀ p ∈ pmf, 0 ≤ p) (h4 : pmf.sum = 1) :
    mkDistribution outcomes pmf base = .ok ⟨outcomes, pmf, base⟩ := by
  unfold mkDistribution
  rw [if_neg (by simp [h1]), if_neg (by simpa using h2), if_neg (by simpa using h3),
    if_neg (by simp [h4])]

theorem mass_of_map {α : Type} [DecidableEq α] (outs : List α) (f : α → ℚ)
    (b : Base) (o : α) :
    (Distribution.mk outs (outs.map f) b).mass o = if o ∈ outs then f o else 0 := by
  unfold Distribution.mass
  by_cases h : o ∈ outs
  · have hlt : List.indexOf o outs < outs.length := List.indexOf_lt_length.mpr h
    have hlt' : List.indexOf o outs < (outs.map f).length := by simpa using hlt
    have hget : outs[List.indexOf o outs] = o := by
      have := List.indexOf_get hlt
      simpa [List.get_eq_getElem] using this
    rw [List.getD_eq_getElem _ _ hlt']
    simp only [List.getElem_map]
    rw [hget, if_pos h]
  · have hge : (outs.map f).length ≤ List.indexOf o outs := by
      simp only [List.length_map]
      exact le_of_eq (List.indexOf_eq_length.mpr h).symm
    rw [List.getD_eq_default _ _ hge, if_neg h]

theorem map_mass_eq_pmf {α : Type} [DecidableEq α] (d : Distribution α)
    (hn : d.outcomes.Nodup) (hl : d.pmf.length = d.outcomes.length) :
    d.outcomes.map d.mass = d.pmf := by
  apply List.ext_getElem
  · simp [hl]
  · intro k h1 h2
    simp only [List.getElem_map]
    unfold Distribution.mass
    have hk : k < d.outcomes.length := by simpa using h1
    have hidx : List.indexOf d.outcomes[k] d.outcomes = k := by
      have := List.get_indexOf hn ⟨k, hk⟩
      simpa [List.get_eq_getElem] using this
    rw [hidx, List.getD_eq_getElem _ _ h2]

theorem mass_nonneg {α : Type} [DecidableEq α] (d : Distribution α)
    (h : ∀ p ∈ d.pmf, 0 ≤ p) (o : α) : 0 ≤ d.mass o := by
  unfold Distribution.mass
  rcases lt_or_le (List.indexOf o d.outcomes) d.pmf.length with hlt | hge
  · rw [List.getD_eq_getElem _ _ hlt]
    exact h _ (List.getElem_mem hlt)
  · rw [List.getD_eq_default _ _ hge]

theorem sum_map_add_distrib {β : Type} (l : List β) (g h : β → ℚ) :
    (l.map (fun b => g b + h b)).sum = (l.map g).sum + (l.map h).sum := by
  induction l with
  | nil => simp
  | cons x xs ih =>
    simp only [List.map_cons, List.sum_cons, ih]
    ring

theorem sum_map_sum_comm {α β : Type} (l1 : List α) (l2 : List β) (f : α → β → ℚ) :
    (l1.map (fun a => (l2.map (fun b => f a b)).sum)).sum
      = (l2.map (fun b => (l1.map (fun a => f a b)).sum)).sum := by
  induction l1 with
  | nil => simp
  | cons x xs ih =>
    simp only [List.map_cons, List.sum_cons, ih, sum_map_add_distrib]

theorem map_zip_comm {α β γ : Type} (f : α → β → γ) (l1 : List α) (l2 : List β) :
    (l1.zip l2).map (fun p => f p.1 p.2) = (l2.zip l1).map (fun p => f p.2 p.1) := by
  rw [← List.zip_swap l1 l2, List.map_map]
  rfl

theorem mapM_eq_ok {α β : Type} (f : α → Except DitError β) (g : α → β)
    (l : List α) (h : ∀ x ∈ l, f x = .ok (g x)) : l.mapM f = .ok (l.map g) := by
  induction l with
  | nil => rfl
  | cons x xs ih =>
    rw [List.mapM_cons, h x (by simp), ih (fun y hy => h y (by simp [hy]))]
    rfl

theorem foldl_preserves {γ δ : Type} (P : γ → Prop) (step : γ → δ → γ)
    (l : List δ) (s : γ) (hs : P s)
    (hstep : ∀ s' x, P s' → x ∈ l → P (step s' x)) : P (l.foldl step s) := by
  induction l generalizing s with
  | nil => exact hs
  | cons x xs ih =>
    exact ih (step s x) (hstep s x hs (by simp))
      (fun s' y h hy => hstep s' y h (by simp [hy]))

theorem set_append_length {γ : Type} (l : List γ) (a b : γ) :
    (l ++ [a]).set l.length b = l ++ [b] := by
  induction l with
  | nil => rfl
  | cons x xs ih => simp [List.set, ih]

theorem zipWith_self_map {α β γ : Type} (f : α → β → γ) (g : α → β) (l : List α) :
    List.zipWith f l (l.map g) = l.map (fun a => f a (g a)) := by
  induction l with
  | nil => rfl
  | cons x xs ih => simp [ih]

theorem mem_unionOutcomes {α : Type} [DecidableEq α] {dists : List (Distribution α)}
    {o : α} : o ∈ unionOutcomes dists ↔ ∃ d ∈ dists, o ∈ d.outcomes := by
  simp [unionOutcomes, List.mem_dedup, List.mem_flatMap]

theorem mixture_false_eq {α : Type} [DecidableEq α] (d0 : Distribution α)
    (rest : List (Distribution α)) (weights : List ℚ)
    (hlen : (d0 :: rest).length = weights.length)
    (hw1 : ∀ w ∈ weights, 0 ≤ w) (hw2 : weights.sum = 1)
    (hmem : ∀ d ∈ d0 :: rest, ∀ o ∈ unionOutcomes (d0 :: rest), o ∈ d.outcomes) :
    mixture_distribution (d0 :: rest) weights false
      = mkDistribution (unionOutcomes (d0 :: rest))
          ((unionOutcomes (d0 :: rest)).map (mixVal weights (d0 :: rest)))
          d0.base := by
  have hmapM : (unionOutcomes (d0 :: rest)).mapM (fun o =>
      (weights.zip (d0 :: rest)).mapM (fun wd =>
        if o ∈ wd.2.outcomes then Except.ok (wd.1 * wd.2.mass o)
        else Except.error DitError.incompatibleOutcome))
      = .ok ((unionOutcomes (d0 :: rest)).map (fun o =>
          (weights.zip (d0 :: rest)).map (fun wd => wd.1 * wd.2.mass o))) := by
    apply mapM_eq_ok
    intro o ho
    apply mapM_eq_ok
    intro wd hwd
    rw [if_pos (hmem wd.2 (List.of_mem_zip hwd).2 o ho)]
  unfold mixture_distribution
  rw [if_neg (by simp [hlen])]
  rw [validate_pmf_eq_ok hw1 hw2]
  simp only []
  rw [hmapM]
  simp only [List.map_map]
  rfl

theorem unionOutcomes_perm {α : Type} [DecidableEq α] {dists : List (Distribution α)}
    {d : Distribution α} (hd : d ∈ dists) (hn : d.outcomes.Nodup)
    (hshared : ∀ d' ∈ dists, ∀ o, o ∈ d'.outcomes ↔ o ∈ d.outcomes) :
    (unionOutcomes dists).Perm d.outcomes := by
  apply List.perm_of_nodup_nodup_toFinset_eq (List.nodup_dedup _) hn
  ext a
  simp only [List.mem_toFinset, List.mem_dedup, List.mem_flatMap]
  constructor
  · rintro ⟨d', hd', ha⟩
    exact (hshared d' hd' a).mp ha
  · intro ha
    exact ⟨d, hd, ha⟩

theorem sum_mass_over_union {α : Type} [DecidableEq α] {dists : List (Distribution α)}
    {dref d : Distribution α} (href : dref ∈ dists) (hd : d ∈ dists) (hv : d.Valid)
    (hshared : ∀ d' ∈ dists, ∀ o, o ∈ d'.outcomes ↔ o ∈ dref.outcomes) :
    ((unionOutcomes dists).map d.mass).sum = 1 := by
  obtain ⟨hn, hl, hs, _⟩ := hv
  have hshared' : ∀ d' ∈ dists, ∀ o, o ∈ d'.outcomes ↔ o ∈ d.outcomes :=
    fun d' hd' o => (hshared d' hd' o).trans (hshared d hd o).symm
  have hperm := unionOutcomes_perm hd hn hshared'
  rw [List.Perm.sum_eq (hperm.map d.mass), map_mass_eq_pmf d hn hl, hs]

theorem sum_map_mixVal {α : Type} [DecidableEq α] (d0 : Distribution α)
    (rest : List (Distribution α)) (weights : List ℚ)
    (hlen : (d0 :: rest).length = weights.length)
    (hvalid : ∀ d ∈ d0 :: rest, d.Valid)
    (hshared : ∀ d' ∈ d0 :: rest, ∀ o, o ∈ d'.outcomes ↔ o ∈ d0.outcomes) :
    ((unionOutcomes (d0 :: rest)).map (mixVal weights (d0 :: rest))).sum
      = weights.sum := by
  unfold mixVal
  rw [sum_map_sum_comm]
  have hone : ∀ wd ∈ weights.zip (d0 :: rest),
      ((unionOutcomes (d0 :: rest)).map (fun o => wd.1 * wd.2.mass o)).sum = wd.1 := by
    intro wd hwd
    rw [List.sum_map_mul_left,
      sum_mass_over_union (List.mem_cons_self d0 rest) (List.of_mem_zip hwd).2
        (hvalid _ (List.of_mem_zip hwd).2) hshared, mul_one]
  rw [List.map_congr_left hone]
  have hfst : (weights.zip (d0 :: rest)).map (fun wd => wd.1) = weights :=
    List.map_fst_zip weights (d0 :: rest) (le_of_eq hlen.symm)
  rw [hfst]

theorem mixVal_nonneg {α : Type} [DecidableEq α] (dists : List (Distribution α))
    (weights : List ℚ) (hvalid : ∀ d ∈ dists, d.Valid)
    (hw1 : ∀ w ∈ weights, 0 ≤ w) (o : α) : 0 ≤ mixVal weights dists o := by
  apply List.sum_nonneg
  intro x hx
  obtain ⟨wd, hwd, rfl⟩ := List.mem_map.mp hx
  have h1 := hw1 _ (List.of_mem_zip hwd).1
  have h2 := mass_nonneg wd.2 (hvalid _ (List.of_mem_zip hwd).2).2.2.2 o
  positivity

/-- C6: for a non-empty list of valid distributions sharing a sample space and
a valid weight vector summing to one, `mixture_distribution(dists, weights)`
succeeds and its pmf sums to exactly one (in the linear interpretation the pmf
is represented in). -/
theorem mixture_distribution_pmf_sums_to_one {α : Type} [DecidableEq α]
    (d0 : Distribution α) (rest : List (Distribution α)) (weights : List ℚ)
    (hlen : (d0 :: rest).length = weights.length)
    (hvalid : ∀ d ∈ d0 :: rest, d.Valid)
    (hshared : ∀ d' ∈ d0 :: rest, ∀ o, o ∈ d'.outcomes ↔ o ∈ d0.outcomes)
    (hw1 : ∀ w ∈ weights, 0 ≤ w) (hw2 : weights.sum = 1) :
    ∃ m, mixture_distribution (d0 :: rest) weights false = .ok m
      ∧ m.pmf.sum = 1 := by
  have hmem : ∀ d ∈ d0 :: rest, ∀ o ∈ unionOutcomes (d0 :: rest), o ∈ d.outcomes := by
    intro d hd o ho
    obtain ⟨d', hd', ho'⟩ := mem_unionOutcomes.mp ho
    exact (hshared d hd o).mpr ((hshared d' hd' o).mp ho')
  have hsum : ((unionOutcomes (d0 :: rest)).map (mixVal weights (d0 :: rest))).sum = 1 := by
    rw [sum_map_mixVal d0 rest weights hlen hvalid hshared, hw2]
  have hnn : ∀ p ∈ (unionOutcomes (d0 :: rest)).map (mixVal weights (d0 :: rest)), 0 ≤ p := by
    intro p hp
    obtain ⟨o, _, rfl⟩ := List.mem_map.mp hp
    exact mixVal_nonneg (d0 :: rest) weights hvalid hw1 o
  refine ⟨⟨unionOutcomes (d0 :: rest),
    (unionOutcomes (d0 :: rest)).map (mixVal weights (d0 :: rest)), d0.base⟩, ?_, hsum⟩
  rw [mixture_false_eq d0 rest weights hlen hw1 hw2 hmem]
  exact mkDistribution_eq_ok (by simp) (List.nodup_dedup _) hnn hsum

/-- Witness for C6 at a concrete input: two distributions on the outcomes 0, 1
mixed with weights one half and one half. -/
theorem mixture_distribution_pmf_sums_to_one_witness :
    ∃ m, mixture_distribution
        [(⟨[0, 1], [1/2, 1/2], .linear⟩ : Distribution Nat), ⟨[0, 1], [1/4, 3/4], .linear⟩]
        [1/2, 1/2] false = .ok m ∧ m.pmf.sum = 1 :=
  mixture_distribution_pmf_sums_to_one ⟨[0, 1], [1/2, 1/2], .linear⟩
    [⟨[0, 1], [1/4, 3/4], .linear⟩] [1/2, 1/2] rfl (by with_unfolding_all decide)
    (by intro d' hd' o; fin_cases hd' <;> exact Iff.rfl)
    (by with_unfolding_all decide) (by with_unfolding_all decide)

theorem dedup_eq_single {α : Type} [DecidableEq α] {l : List α} {c : α}
    (hne : l ≠ []) (h : ∀ x ∈ l, x = c) : l.dedup = [c] := by
  induction l with
  | nil => cases hne rfl
  | cons x xs ih =>
    have hx : x = c := h x (by simp)
    subst hx
    rcases eq_or_ne xs [] with h0 | h0
    · subst h0; simp
    · have hc : x ∈ xs := by
        obtain ⟨y, hy⟩ := List.exists_mem_of_ne_nil xs h0
        have := h y (by simp [hy])
        rw [← this]; exact hy
      rw [List.dedup_cons_of_mem hc, ih h0 (fun y hy => h y (by simp [hy]))]

theorem foldl_mix_spec {α : Type} [DecidableEq α] (pairs : List (Distribution α × ℚ)) :
    ∀ (acc : List ℚ), (∀ p ∈ pairs, p.1.pmf.length = acc.length) →
      (pairs.foldl (fun a dw => List.zipWith (· + ·) a (dw.1.pmf.map (fun p => p * dw.2))) acc).length = acc.length
      ∧ ∀ k < acc.length,
        (pairs.foldl (fun a dw => List.zipWith (· + ·) a (dw.1.pmf.map (fun p => p * dw.2))) acc).getD k 0
          = acc.getD k 0 + ((pairs.map (fun dw => dw.1.pmf.getD k 0 * dw.2)).sum) := by
  induction pairs with
  | nil => exact fun acc _ => ⟨rfl, by simp⟩
  | cons dw ps ih =>
    intro acc hlen
    have hdw : dw.1.pmf.length = acc.length := hlen dw (by simp)
    have hSlen : (List.zipWith (· + ·) acc (dw.1.pmf.map (fun p => p * dw.2))).length = acc.length := by
      simp [List.length_zipWith, hdw]
    have hSget : ∀ k < acc.length,
        (List.zipWith (· + ·) acc (dw.1.pmf.map (fun p => p * dw.2))).getD k 0
          = acc.getD k 0 + dw.1.pmf.getD k 0 * dw.2 := by
      intro k hk
      have hk2 : k < (List.zipWith (· + ·) acc (dw.1.pmf.map (fun p => p * dw.2))).length := by
        rw [hSlen]; exact hk
      have hk3 : k < dw.1.pmf.length := by rw [hdw]; exact hk
      rw [List.getD_eq_getElem _ _ hk2, List.getElem_zipWith, List.getElem_map,
        List.getD_eq_getElem _ _ hk, List.getD_eq_getElem _ _ hk3]
    obtain ⟨ihlen, ihget⟩ := ih (List.zipWith (· + ·) acc (dw.1.pmf.map (fun p => p * dw.2)))
      (fun p hp => by rw [hSlen]; exact hlen p (by simp [hp]))
    refine ⟨by rw [List.foldl_cons, ihlen, hSlen], ?_⟩
    intro k hk
    rw [List.foldl_cons, ihget k (by rw [hSlen]; exact hk), hSget k hk]
    simp only [List.map_cons, List.sum_cons]
    ring

theorem mixture_distribution2_eq {α : Type} [DecidableEq α] (d0 : Distribution α)
    (rest : List (Distribution α)) (w0 : ℚ) (wrest : List ℚ)
    (hlen : rest.length = wrest.length)
    (hshape : ∀ d ∈ d0 :: rest, d.pmf.length = d0.pmf.length)
    (hw1 : ∀ w ∈ w0 :: wrest, 0 ≤ w) (hw2 : (w0 :: wrest).sum = 1) :
    ∃ q, mixture_distribution2 (d0 :: rest) (w0 :: wrest) = .ok ⟨d0.outcomes, q, d0.base⟩
      ∧ q.length = d0.pmf.length
      ∧ ∀ k < d0.pmf.length, q.getD k 0
          = w0 * d0.pmf.getD k 0
            + ((rest.zip wrest).map (fun dw => dw.1.pmf.getD k 0 * dw.2)).sum := by
  have hshapes : ((d0 :: rest).map (fun d => d.pmf.length)).dedup = [d0.pmf.length] := by
    apply dedup_eq_single (by simp)
    intro x hx
    obtain ⟨d, hd, rfl⟩ := List.mem_map.mp hx
    exact hshape d hd
  unfold mixture_distribution2
  rw [if_neg (by simp [hlen])]
  rw [if_neg (by rw [hshapes]; simp)]
  simp only []
  rw [validate_pmf_eq_ok hw1 hw2]
  simp only []
  obtain ⟨hflen, hfget⟩ := foldl_mix_spec (rest.zip wrest) (d0.pmf.map (fun p => w0 * p))
    (fun p hp => by
      simp only [List.length_map]
      exact hshape p.1 (by simp [(List.of_mem_zip hp).1]))
  refine ⟨_, rfl, ?_, ?_⟩
  · rw [hflen, List.length_map]
  · intro k hk
    have hk2 : k < (d0.pmf.map (fun p => w0 * p)).length := by simpa using hk
    rw [hfget k hk2]
    rw [List.getD_eq_getElem _ _ hk2, List.getElem_map, List.getD_eq_getElem _ _ hk]

/-- C2: when every distribution has the same outcome order (hence the same pmf
shape) and the weights are valid, the fast path `mixture_distribution2` returns
a distribution equal to `mixture_distribution`: same base, same outcome set,
and the same mass at every outcome. -/
theorem mixture_distribution2_agrees {α : Type} [DecidableEq α]
    (d0 : Distribution α) (rest : List (Distribution α)) (w0 : ℚ) (wrest : List ℚ)
    (hlen : (d0 :: rest).length = (w0 :: wrest).length)
    (hvalid : ∀ d ∈ d0 :: rest, d.Valid)
    (hout : ∀ d ∈ d0 :: rest, d.outcomes = d0.outcomes)
    (hw1 : ∀ w ∈ w0 :: wrest, 0 ≤ w) (hw2 : (w0 :: wrest).sum = 1) :
    ∃ m1 m2, mixture_distribution (d0 :: rest) (w0 :: wrest) false = .ok m1
      ∧ mixture_distribution2 (d0 :: rest) (w0 :: wrest) = .ok m2
      ∧ m1.base = m2.base
      ∧ (∀ o, o ∈ m1.outcomes ↔ o ∈ m2.outcomes)
      ∧ (∀ o, m1.mass o = m2.mass o) := by
  have hshared : ∀ d' ∈ d0 :: rest, ∀ o, o ∈ d'.outcomes ↔ o ∈ d0.outcomes :=
    fun d' hd' o => by rw [hout d' hd']
  have hmem : ∀ d ∈ d0 :: rest, ∀ o ∈ unionOutcomes (d0 :: rest), o ∈ d.outcomes := by
    intro d hd o ho
    obtain ⟨d', hd', ho'⟩ := mem_unionOutcomes.mp ho
    exact (hshared d hd o).mpr ((hshared d' hd' o).mp ho')
  have hU : ∀ o, o ∈ unionOutcomes (d0 :: rest) ↔ o ∈ d0.outcomes := by
    intro o
    rw [mem_unionOutcomes]
    constructor
    · rintro ⟨d', hd', ho'⟩
      exact (hshared d' hd' o).mp ho'
    · intro ho
      exact ⟨d0, by simp, ho⟩
  have hsum : ((unionOutcomes (d0 :: rest)).map (mixVal (w0 :: wrest) (d0 :: rest))).sum = 1 := by
    rw [sum_map_mixVal d0 rest (w0 :: wrest) hlen hvalid hshared, hw2]
  have hnn : ∀ p ∈ (unionOutcomes (d0 :: rest)).map (mixVal (w0 :: wrest) (d0 :: rest)), 0 ≤ p := by
    intro p hp
    obtain ⟨o, _, rfl⟩ := List.mem_map.mp hp
    exact mixVal_nonneg (d0 :: rest) (w0 :: wrest) hvalid hw1 o
  have hlen' : rest.length = wrest.length := by simpa using hlen
  have hshape : ∀ d ∈ d0 :: rest, d.pmf.length = d0.pmf.length := by
    intro d hd
    rw [(hvalid d hd).2.1, hout d hd, ← (hvalid d0 (by simp)).2.1]
  obtain ⟨q, hq, hqlen, hqget⟩ :=
    mixture_distribution2_eq d0 rest w0 wrest hlen' hshape hw1 hw2
  refine ⟨⟨unionOutcomes (d0 :: rest),
      (unionOutcomes (d0 :: rest)).map (mixVal (w0 :: wrest) (d0 :: rest)), d0.base⟩,
    ⟨d0.outcomes, q, d0.base⟩, ?_, hq, rfl, ?_, ?_⟩
  · rw [mixture_false_eq d0 rest (w0 :: wrest) hlen hw1 hw2 hmem]
    exact mkDistribution_eq_ok (by simp) (List.nodup_dedup _) hnn hsum
  · exact hU
  · intro o
    rw [mass_of_map]
    show _ = q.getD (List.indexOf o d0.outcomes) 0
    by_cases ho : o ∈ d0.outcomes
    · rw [if_pos ((hU o).mpr ho)]
      have hidx : List.indexOf o d0.outcomes < d0.outcomes.length :=
        List.indexOf_lt_length.mpr ho
      have hidx2 : List.indexOf o d0.outcomes < d0.pmf.length := by
        rw [(hvalid d0 (by simp)).2.1]; exact hidx
      rw [hqget _ hidx2]
      have hmass : ∀ d ∈ d0 :: rest, d.mass o = d.pmf.getD (List.indexOf o d0.outcomes) 0 := by
        intro d hd
        unfold Distribution.mass
        rw [hout d hd]
      unfold mixVal
      rw [List.zip_cons_cons, List.map_cons, List.sum_cons,
        hmass d0 (by simp)]
      congr 1
      rw [map_zip_comm (fun w d => w * Distribution.mass d o) wrest rest]
      apply congrArg List.sum
      apply List.map_congr_left
      intro dw hdw
      rw [hmass dw.1 (by simp [(List.of_mem_zip hdw).1]), mul_comm]
    · rw [if_neg (fun hc => ho ((hU o).mp hc))]
      have hge : q.length ≤ List.indexOf o d0.outcomes := by
        rw [hqlen, (hvalid d0 (by simp)).2.1]
        exact le_of_eq (List.indexOf_eq_length.mpr ho).symm
      rw [List.getD_eq_default _ _ hge]

/-- Witness for C2 at a concrete input: two aligned distributions on the
outcomes 0, 1 mixed with weights one half and one half. -/
theorem mixture_distribution2_agrees_witness :
    ∃ m1 m2, mixture_distribution
        [(⟨[0, 1], [1/2, 1/2], .linear⟩ : Distribution Nat), ⟨[0, 1], [1/4, 3/4], .linear⟩]
        [1/2, 1/2] false = .ok m1
      ∧ mixture_distribution2
          [(⟨[0, 1], [1/2, 1/2], .linear⟩ : Distribution Nat), ⟨[0, 1], [1/4, 3/4], .linear⟩]
          [1/2, 1/2] = .ok m2
      ∧ m1.base = m2.base
      ∧ (∀ o, o ∈ m1.outcomes ↔ o ∈ m2.outcomes)
      ∧ (∀ o, m1.mass o = m2.mass o) :=
  mixture_distribution2_agrees ⟨[0, 1], [1/2, 1/2], .linear⟩
    [⟨[0, 1], [1/4, 3/4], .linear⟩] (1/2) [1/2] rfl
    (by with_unfolding_all decide)
    (by intro d hd; fin_cases hd <;> rfl)
    (by with_unfolding_all decide) (by with_unfolding_all decide)

theorem mixture_distribution_merge_eq {α : Type} [DecidableEq α] (d0 : Distribution α)
    (rest : List (Distribution α)) (weights : List ℚ)
    (hlen : (d0 :: rest).length = weights.length)
    (hw1 : ∀ w ∈ weights, 0 ≤ w) (hw2 : weights.sum = 1) :
    mixture_distribution (d0 :: rest) weights true
      = mkDistribution (unionOutcomes (d0 :: rest))
          ((unionOutcomes (d0 :: rest)).map (fun o =>
            ((weights.zip (d0 :: rest)).map (fun wd =>
              if o ∈ wd.2.outcomes then wd.1 * wd.2.mass o
              else litZeroLinear d0.base)).sum))
          d0.base := by
  unfold mixture_distribution
  rw [if_neg (by simp [hlen])]
  rw [validate_pmf_eq_ok hw1 hw2]
  rfl

/-- C1 (code bug): mixing two log-base (base 2) distributions with `merge=True`
over unequal outcome sets.  The claim — and the function's own docstring, which
says each input is reinterpreted on the merged sample space — make the input
without outcome 1 contribute zero mass there, so mixing the point mass on 0
with the fair distribution on 0, 1 (weights one half each, all values given by
their linear interpretations) should give masses 3/4 and 1/4.  Instead the
source supplies the Python literal `0` for the absent outcome, which as a
stored log-base value means linear mass `2 ^ 0 = 1`; the computed pmf then has
total linear mass 2 and the constructor raises `InvalidNormalization`. -/
theorem mixture_distribution_log_merge_bug :
    mixture_distribution
        [(⟨[0], [1], .log 2⟩ : Distribution Nat), ⟨[0, 1], [1/2, 1/2], .log 2⟩]
        [1/2, 1/2] true
      = .error .invalidNormalization := by
  with_unfolding_all decide

/-- C3 (code bug): `random_scalar_distribution` called with an explicit outcome
sequence discards the outcomes.  It computes `nOutcomes = len(n)` and passes
that integer to `uniform_scalar_distribution`, so the result's outcomes are
`(0, 1)` rather than the given `('a', 'b')`; only the pmf length survives. -/
theorem random_scalar_distribution_drops_outcomes :
    random_scalar_distribution (.outcomeList [.str "a", .str "b"]) none
        (fun _ => [1/2, 1/2])
      = .ok ⟨[.int 0, .int 1], [1/2, 1/2], .linear⟩
    ∧ ([PyVal.int 0, PyVal.int 1] : List PyVal) ≠ [PyVal.str "a", PyVal.str "b"] := by
  constructor
  · with_unfolding_all decide
  · decide

/-- C7: under the fast path's preconditions, `mixture_distribution2` only
allocates one fresh pmf array (the copy of `dists[0]`'s) and applies the
in-place scaling and accumulation to that array alone: the final store is the
initial store extended by the one fresh array, so every caller-owned pmf array
— in particular every input distribution's — reads back unchanged, and the
returned distribution references the fresh array. -/
theorem mixture_distribution2Ref_preserves_inputs {α : Type} (d0 : DistRef α)
    (rest : List (DistRef α)) (w0 : ℚ) (wrest : List ℚ) (σ : Store)
    (hlen : rest.length = wrest.length)
    (hshape : ((d0 :: rest).map (fun d => (σ.getD d.pmfRef []).length)).dedup.length = 1)
    (hw1 : ∀ w ∈ w0 :: wrest, 0 ≤ w) (hw2 : (w0 :: wrest).sum = 1) :
    ∃ mix a, mixture_distribution2Ref (d0 :: rest) (w0 :: wrest) σ = (.ok mix, σ ++ [a])
      ∧ mix.pmfRef = σ.length
      ∧ ∀ d ∈ d0 :: rest, d.pmfRef < σ.length →
          (σ ++ [a]).getD d.pmfRef [] = σ.getD d.pmfRef [] := by
  have hfold : ∀ s : Store, (∃ a, s = σ ++ [a]) →
      ∃ a, (rest.zip wrest).foldl
        (fun s dw => s.set σ.length (List.zipWith (· + ·) (s.getD σ.length [])
          ((s.getD dw.1.pmfRef []).map (fun p => p * dw.2)))) s = σ ++ [a] := by
    intro s hs
    exact foldl_preserves (fun s => ∃ a, s = σ ++ [a]) _ (rest.zip wrest) s hs
      (fun s' dw hs' _ => by
        obtain ⟨a, rfl⟩ := hs'
        exact ⟨_, set_append_length σ a _⟩)
  unfold mixture_distribution2Ref
  rw [if_neg (by simp [hlen])]
  rw [if_neg (by rw [hshape]; simp)]
  simp only []
  rw [validate_pmf_eq_ok hw1 hw2]
  simp only []
  obtain ⟨a, ha⟩ := hfold ((σ ++ [σ.getD d0.pmfRef []]).set σ.length
    (((σ ++ [σ.getD d0.pmfRef []]).getD σ.length []).map (fun p => w0 * p)))
    ⟨_, set_append_length σ _ _⟩
  refine ⟨⟨d0.outcomes, σ.length, d0.base⟩, a, ?_, rfl, ?_⟩
  · rw [ha]
  · intro d _ hd
    exact List.getD_append _ _ _ _ hd

/-- Witness for C7 at a concrete input: a two-array store, the two referenced
distributions mixed with weights one half and one half. -/
theorem mixture_distribution2Ref_preserves_inputs_witness :
    ∃ mix a, mixture_distribution2Ref
        [(⟨[0, 1], 0, .linear⟩ : DistRef Nat), ⟨[0, 1], 1, .linear⟩]
        [1/2, 1/2] [[1/2, 1/2], [1/4, 3/4]]
      = (.ok mix, [[1/2, 1/2], [1/4, 3/4]] ++ [a])
      ∧ mix.pmfRef = ([[1/2, 1/2], [1/4, 3/4]] : Store).length
      ∧ ∀ d ∈ [(⟨[0, 1], 0, .linear⟩ : DistRef Nat), ⟨[0, 1], 1, .linear⟩],
          d.pmfRef < ([[1/2, 1/2], [1/4, 3/4]] : Store).length →
            (([[1/2, 1/2], [1/4, 3/4]] : Store) ++ [a]).getD d.pmfRef []
              = ([[1/2, 1/2], [1/4, 3/4]] : Store).getD d.pmfRef [] :=
  mixture_distribution2Ref_preserves_inputs ⟨[0, 1], 0, .linear⟩ [⟨[0, 1], 1, .linear⟩]
    (1/2) [1/2] [[1/2, 1/2], [1/4, 3/4]] rfl (by with_unfolding_all decide)
    (by with_unfolding_all decide) (by with_unfolding_all decide)

theorem foldl_min_const (c : ℕ) (xs : List ℕ) (h : ∀ x ∈ xs, x = c) :
    xs.foldl min c = c := by
  induction xs with
  | nil => rfl
  | cons x xs ih =>
    rw [List.foldl_cons, h x (by simp), min_self]
    exact ih (fun y hy => h y (by simp [hy]))

theorem filterMap_eq_map_of_some {γ β : Type} (f : γ → Option β) (g : γ → β)
    (l : List γ) (h : ∀ x ∈ l, f x = some (g x)) : l.filterMap f = l.map g := by
  induction l with
  | nil => rfl
  | cons x xs ih =>
    rw [List.filterMap_cons, h x (by simp), List.map_cons,
      ih (fun y hy => h y (by simp [hy]))]

theorem zipStar_rect {γ β : Type} (g0 : γ → β) (gs : List (γ → β)) (l : List γ) :
    zipStar ((g0 :: gs).map (fun g => l.map g))
      = l.map (fun x => (g0 :: gs).map (fun g => g x)) := by
  have hmin : ((gs.map (fun g => l.map g)).map List.length).foldl min (l.map g0).length
      = l.length := by
    rw [List.length_map]
    apply foldl_min_const
    intro x hx
    obtain ⟨c, hc, rfl⟩ := List.mem_map.mp hx
    obtain ⟨g, _, rfl⟩ := List.mem_map.mp hc
    exact List.length_map l g
  simp only [List.map_cons, zipStar]
  rw [hmin]
  apply List.ext_getElem
  · simp
  · intro k h1 h2
    have hk : k < l.length := by simpa using h1
    simp only [List.getElem_map, List.getElem_range]
    rw [show (l.map g0 :: gs.map (fun g => l.map g))
        = (g0 :: gs).map (fun g => l.map g) by rw [List.map_cons]]
    rw [List.filterMap_map]
    refine (filterMap_eq_map_of_some ((fun col => col.get? k) ∘ fun g => List.map g l)
      (fun g => g l[k]) (g0 :: gs) ?_).trans (by rw [List.map_cons])
    intro g _
    show (l.map g).get? k = some (g l[k])
    rw [List.get?_map, List.get?_eq_getElem?, List.getElem?_eq_getElem hk]
    rfl

theorem insert_rvf_body_eq {σ : Type} [DecidableEq σ] (d : Distribution (List σ))
    (g0 : List σ → List σ) (gs : List (List σ → List σ)) (L : ℕ) (hval : d.Valid)
    (hL : ∀ o ∈ d.outcomes, o.length = L) :
    mkDistribution
        (List.zipWith (fun old new => old ++ new) d.outcomes
          ((zipStar ((g0 :: gs).map (fun f => d.outcomes.map f))).map
            (fun row => row.flatten)))
        d.pmf d.base
      = .ok ⟨d.outcomes.map (fun o => o ++ (((g0 :: gs).map (fun f => f o)).flatten)),
          d.pmf, d.base⟩ := by
  obtain ⟨hn, hlen, hsum, hnn⟩ := hval
  rw [zipStar_rect, List.map_map]
  have hcomp : (List.flatten ∘ fun x => (g0 :: gs).map (fun g => g x))
      = fun o => ((g0 :: gs).map (fun f => f o)).flatten := rfl
  rw [hcomp, zipWith_self_map]
  apply mkDistribution_eq_ok
  · rw [List.length_map, hlen]
  · apply List.Nodup.map_on ?_ hn
    intro x hx y hy hxy
    have hlx : x.length = y.length := by rw [hL x hx, hL y hy]
    exact (List.append_inj hxy hlx).1
  · exact hnn
  · exact hsum

/-- C4 (amended to non-empty function lists): `insert_rvf` on a valid joint
distribution with a single function, or a non-empty list of functions, returns
a new distribution whose outcome at position `k` is the original outcome at `k`
concatenated with each function's output on that outcome, in the listed order,
with the pmf and the base unchanged. -/
theorem insert_rvf_appends {σ : Type} [DecidableEq σ] (d : Distribution (List σ))
    (func : FuncArg σ) (L : ℕ) (hval : d.Valid)
    (hL : ∀ o ∈ d.outcomes, o.length = L) (hne : funcList func ≠ []) :
    insert_rvf d func (-1)
      = .ok ⟨d.outcomes.map (fun o => o ++ (((funcList func).map (fun f => f o)).flatten)),
          d.pmf, d.base⟩ := by
  cases func with
  | one g =>
    show mkDistribution _ _ _ = _
    exact insert_rvf_body_eq d g [] L hval hL
  | many gs =>
    cases gs with
    | nil => exact absurd rfl hne
    | cons g0 gs' =>
      show mkDistribution _ _ _ = _
      exact insert_rvf_body_eq d g0 gs' L hval hL

/-- Witness for C4 at a concrete input: the uniform distribution on the strings
00, 01, 10, 11 extended by the XOR of the two positions (the docstring example
of `insert_rvf`). -/
theorem insert_rvf_appends_witness :
    insert_rvf
        (⟨[['0', '0'], ['0', '1'], ['1', '0'], ['1', '1']],
          [1/4, 1/4, 1/4, 1/4], .linear⟩ : Distribution (List Char))
        (.one (fun o => if o.getD 0 ' ' = o.getD 1 ' ' then ['0'] else ['1'])) (-1)
      = .ok ⟨[['0', '0', '0'], ['0', '1', '1'], ['1', '0', '1'], ['1', '1', '0']],
          [1/4, 1/4, 1/4, 1/4], .linear⟩ := by
  rw [insert_rvf_appends
    (⟨[['0', '0'], ['0', '1'], ['1', '0'], ['1', '1']],
      [1/4, 1/4, 1/4, 1/4], .linear⟩ : Distribution (List Char))
    (.one (fun o => if o.getD 0 ' ' = o.getD 1 ' ' then ['0'] else ['1'])) 2
    (by with_unfolding_all decide) (by decide) (by simp [funcList])]
  with_unfolding_all decide

/-- C4 counterexample: called with an empty list of functions, `insert_rvf`
raises `IndexError` — the `func[0]` probe fails and the `except TypeError`
clause does not catch an `IndexError` — so no distribution is returned, against
the claim's promise for every ordered list of functions. -/
theorem insert_rvf_empty_list_error :
    insert_rvf (⟨[['0'], ['1']], [1/2, 1/2], .linear⟩ : Distribution (List Char))
      (.many []) (-1) = .error .indexError := rfl

/-- C10: the `index` parameter of `insert_rvf` is never read: for every
distribution, function argument and integer index the result is the same as
with the default index of -1, the new coordinates are appended at the end, and
no error depends on the index value. -/
theorem insert_rvf_index_ignored {σ : Type} [DecidableEq σ] (d : Distribution (List σ))
    (func : FuncArg σ) (index : Int) :
    insert_rvf d func index = insert_rvf d func (-1) := rfl

theorem listProduct_length {σ : Type} (als : List (List σ)) :
    (listProduct als).length = (als.map List.length).prod := by
  induction als with
  | nil => rfl
  | cons xs rest ih =>
    simp only [listProduct, List.length_flatMap, List.map_cons, List.prod_cons]
    have : (List.map (List.length ∘ fun x => (listProduct rest).map (fun t => x :: t)) xs)
        = List.map (fun _ => (listProduct rest).length) xs := by
      apply List.map_congr_left
      intro x _
      simp
    rw [this, List.map_const', List.sum_replicate, smul_eq_mul, ih]

theorem flatMap_map_range {σ β : Type} (x0 : σ) (g : σ → ℕ → β) (n : ℕ) (xs : List σ) :
    xs.flatMap (fun x => (List.range n).map (g x))
      = (List.range (xs.length * n)).map (fun j => g (xs.getD (j / n) x0) (j % n)) := by
  induction xs with
  | nil => simp
  | cons x xs' ih =>
    rcases Nat.eq_zero_or_pos n with hn | hn
    · subst hn
      simp
    · rw [show (x :: xs').length * n = n + xs'.length * n by simp [Nat.succ_mul]; ring]
      rw [List.range_add, List.map_append, List.flatMap_cons]
      congr 1
      · apply List.map_congr_left
        intro j hj
        have hjn : j < n := List.mem_range.mp hj
        rw [Nat.div_eq_of_lt hjn, Nat.mod_eq_of_lt hjn]
        rfl
      · rw [List.map_map, ih]
        apply List.map_congr_left
        intro j _
        simp only [Function.comp]
        rw [Nat.add_comm n j, Nat.add_div_right j hn, Nat.add_mod_right]
        rfl

theorem listProduct_replicate_eq {σ : Type} (xs : List σ) (x0 : σ) (k : ℕ) :
    listProduct (List.replicate k xs)
      = (List.range (xs.length ^ k)).map
          (fun j => (List.range k).map
            (fun p => xs.getD (j / xs.length ^ (k - 1 - p) % xs.length) x0)) := by
  induction k with
  | zero => simp [listProduct]
  | succ k ih =>
    rcases Nat.eq_zero_or_pos xs.length with h0 | h0
    · rw [List.length_eq_zero.mp h0]
      rw [List.replicate_succ]
      show listProduct ([] :: List.replicate k []) = _
      simp [listProduct, zero_pow (Nat.succ_ne_zero k)]
    · rw [List.replicate_succ]
      show listProduct (xs :: List.replicate k xs) = _
      simp only [listProduct]
      rw [ih]
      have : (fun x => ((List.range (xs.length ^ k)).map
            (fun j => (List.range k).map
              (fun p => xs.getD (j / xs.length ^ (k - 1 - p) % xs.length) x0))).map
                (fun t => x :: t))
          = fun x => (List.range (xs.length ^ k)).map
              (fun j => x :: (List.range k).map
                (fun p => xs.getD (j / xs.length ^ (k - 1 - p) % xs.length) x0)) := by
        funext x
        rw [List.map_map]
        rfl
      rw [this]
      rw [flatMap_map_range x0
        (fun x j => x :: (List.range k).map
          (fun p => xs.getD (j / xs.length ^ (k - 1 - p) % xs.length) x0))
        (xs.length ^ k) xs]
      rw [show xs.length ^ (k + 1) = xs.length * xs.length ^ k by ring]
      apply List.map_congr_left
      intro j hj
      have hjlt : j < xs.length * xs.length ^ k := List.mem_range.mp hj
      have hpow : 0 < xs.length ^ k := Nat.pos_pow_of_pos k h0
      rw [List.range_succ_eq_map, List.map_cons]
      congr 1
      · -- head digit
        have hdiv : j / xs.length ^ k < xs.length :=
          (Nat.div_lt_iff_lt_mul hpow).mpr hjlt
        rw [show k + 1 - 1 - 0 = k by omega, Nat.mod_eq_of_lt hdiv]
      · -- tail digits
        rw [List.map_map]
        apply List.map_congr_left
        intro p hp
        have hpk : p < k := List.mem_range.mp hp
        simp only [Function.comp]
        have harith : k + 1 - 1 - (p + 1) = k - 1 - p := by omega
        rw [harith]
        have hsplit : xs.length ^ k = xs.length ^ (k - 1 - p) * xs.length ^ (p + 1) := by
          rw [← pow_add]
          congr 1
          omega
        rw [hsplit, Nat.mod_mul_right_div_self,
          Nat.mod_mod_of_dvd _ (dvd_pow_self xs.length (Nat.succ_ne_zero p))]

theorem listProduct_nodup {σ : Type} (als : List (List σ)) (h : ∀ l ∈ als, l.Nodup) :
    (listProduct als).Nodup := by
  induction als with
  | nil => simp [listProduct]
  | cons xs rest ih =>
    simp only [listProduct]
    rw [List.nodup_flatMap]
    constructor
    · intro x _
      exact (ih (fun l hl => h l (by simp [hl]))).map
        (fun a b hab => (List.cons.injEq _ _ _ _).mp hab |>.2)
    · have hxs : xs.Nodup := h xs (by simp)
      apply List.Pairwise.imp ?_ hxs
      intro a b hab
      intro t hta htb
      obtain ⟨u, _, rfl⟩ := List.mem_map.mp hta
      obtain ⟨v, _, hv⟩ := List.mem_map.mp htb
      have hba : b = a := ((List.cons.injEq _ _ _ _).mp hv).1
      exact hab hba.symm

/-- C5 (amended to positive alphabet size): for `outcome_length` at least 1 and
integer `alphabet_size` at least 1, `uniform_distribution` returns a
distribution with exactly `alphabet_size ^ outcome_length` outcomes — the
Cartesian product of the per-position alphabet `0 .. alphabet_size - 1` in
product order, i.e. outcome `j` is the `outcome_length`-digit base-`m`
expansion of `j` with the rightmost digit varying fastest — each outcome
carrying mass `1 / alphabet_size ^ outcome_length`, in linear base. -/
theorem uniform_distribution_integer_alphabet (k : ℕ) (m : ℤ)
    (hk : 1 ≤ k) (hm : 1 ≤ m) :
    ∃ d, uniform_distribution k (.size m) = .ok d
      ∧ d.outcomes.length = m.toNat ^ k
      ∧ d.outcomes = (List.range (m.toNat ^ k)).map
          (fun j => (List.range k).map
            (fun p => ((j / m.toNat ^ (k - 1 - p) % m.toNat : ℕ) : ℤ)))
      ∧ d.pmf = List.replicate (m.toNat ^ k) (1 / ((m.toNat ^ k : ℕ) : ℚ))
      ∧ d.base = .linear := by
  have hm0 : 0 < m.toNat := by omega
  have hlen : (intRange m).length = m.toNat := by
    rw [intRange, List.length_map, List.length_range]
  have hZ : ((List.replicate k (intRange m)).map List.length).prod = m.toNat ^ k := by
    rw [List.map_replicate, hlen, List.prod_replicate]
  have hZpos : (0 : ℚ) < ((m.toNat ^ k : ℕ) : ℚ) := by
    have : 0 < m.toNat ^ k := Nat.pos_pow_of_pos k hm0
    exact_mod_cast this
  have houtlen : (listProduct (List.replicate k (intRange m))).length = m.toNat ^ k := by
    rw [listProduct_length, hZ]
  have hout : listProduct (List.replicate k (intRange m))
      = (List.range (m.toNat ^ k)).map
          (fun j => (List.range k).map
            (fun p => ((j / m.toNat ^ (k - 1 - p) % m.toNat : ℕ) : ℤ))) := by
    rw [listProduct_replicate_eq (intRange m) 0 k, hlen]
    apply List.map_congr_left
    intro j _
    apply List.map_congr_left
    intro p _
    have hdig : j / m.toNat ^ (k - 1 - p) % m.toNat < m.toNat := Nat.mod_lt _ hm0
    have hdig2 : j / m.toNat ^ (k - 1 - p) % m.toNat < (intRange m).length := by
      rw [hlen]; exact hdig
    rw [List.getD_eq_getElem _ _ hdig2]
    simp only [intRange, List.getElem_map, List.getElem_range]
  have hirn : (intRange m).Nodup := by
    have hinj : Function.Injective (fun i : ℕ => (i : ℤ)) :=
      fun a b hab => by
        simp only [Int.natCast_inj] at hab
        exact hab
    exact List.Nodup.map hinj (List.nodup_range m.toNat)
  have hnodup : (listProduct (List.replicate k (intRange m))).Nodup := by
    apply listProduct_nodup
    intro l hl
    rw [List.eq_of_mem_replicate hl]
    exact hirn
  refine ⟨⟨listProduct (List.replicate k (intRange m)),
    List.replicate (m.toNat ^ k) (1 / ((m.toNat ^ k : ℕ) : ℚ)), .linear⟩,
    ?_, houtlen, hout, rfl, rfl⟩
  unfold uniform_distribution uniformFromAlphabet
  simp only []
  rw [hZ]
  apply mkDistribution_eq_ok
  · rw [List.length_replicate, houtlen]
  · exact hnodup
  · intro p hp
    rw [List.eq_of_mem_replicate hp]
    positivity
  · rw [List.sum_replicate, nsmul_eq_mul, mul_one_div, div_self (ne_of_gt hZpos)]

/-- Witness for C5 at a concrete input: two binary positions. -/
theorem uniform_distribution_integer_alphabet_witness :
    ∃ d, uniform_distribution 2 (.size 2) = .ok d
      ∧ d.outcomes.length = (2 : ℤ).toNat ^ 2
      ∧ d.outcomes = (List.range ((2 : ℤ).toNat ^ 2)).map
          (fun j => (List.range 2).map
            (fun p => ((j / (2 : ℤ).toNat ^ (2 - 1 - p) % (2 : ℤ).toNat : ℕ) : ℤ)))
      ∧ d.pmf = List.replicate ((2 : ℤ).toNat ^ 2) (1 / (((2 : ℤ).toNat ^ 2 : ℕ) : ℚ))
      ∧ d.base = .linear :=
  uniform_distribution_integer_alphabet 2 2 (by decide) (by decide)

/-- C5 counterexample: with alphabet size 0 the per-position alphabet is empty,
the outcome list is empty and the pmf is empty, so the constructor raises
`InvalidNormalization` and no distribution at all is returned — the claim as
stated, quantified over every integer alphabet size, fails at 0. -/
theorem uniform_distribution_zero_alphabet :
    uniform_distribution 1 (.size 0) = .error .invalidNormalization := by
  with_unfolding_all decide

theorem strCtor_single (o : List Char) : strCtor [o] = o := by
  simp [strCtor]

theorem foldl_dictInsert_notkey {α β : Type} [DecidableEq α] (l : List (α × β))
    (m0 : α → Option β) (o : α) (h : ∀ p ∈ l, p.1 ≠ o) :
    (l.foldl (fun m p => dictInsert m p.1 p.2) m0) o = m0 o := by
  induction l generalizing m0 with
  | nil => rfl
  | cons p ps ih =>
    rw [List.foldl_cons, ih _ (fun q hq => h q (by simp [hq]))]
    exact if_neg (fun hx => h p (by simp) hx.symm)

theorem foldl_dictInsert_allsame {α β : Type} [DecidableEq α] (l : List (α × β))
    (m0 : α → Option β) (o : α) (c : β)
    (hex : ∃ p ∈ l, p.1 = o) (hall : ∀ p ∈ l, p.1 = o → p.2 = c) :
    (l.foldl (fun m p => dictInsert m p.1 p.2) m0) o = some c := by
  induction l generalizing m0 with
  | nil =>
    obtain ⟨p, hp, _⟩ := hex
    cases hp
  | cons p ps ih =>
    by_cases hps : ∃ q ∈ ps, q.1 = o
    · exact ih _ hps (fun q hq hqo => hall q (by simp [hq]) hqo)
    · have hp : p.1 = o := by
        obtain ⟨q, hq, hqo⟩ := hex
        rcases List.mem_cons.mp hq with rfl | hq'
        · exact hqo
        · exact absurd ⟨q, hq', hqo⟩ hps
      rw [List.foldl_cons,
        foldl_dictInsert_notkey ps _ o (fun q hq hqo => hps ⟨q, hq, hqo⟩),
        dictInsert, if_pos hp.symm, hall p (by simp) hp]

theorem foldl_flatMap_dictInsert {γ α β : Type} [DecidableEq α] (l : List γ)
    (f : γ → List (α × β)) (m0 : α → Option β) :
    l.foldl (fun m x => (f x).foldl (fun m' p => dictInsert m' p.1 p.2) m) m0
      = (l.flatMap f).foldl (fun m p => dictInsert m p.1 p.2) m0 := by
  induction l generalizing m0 with
  | nil => rfl
  | cons x xs ih =>
    rw [List.foldl_cons, List.flatMap_cons, List.foldl_append, ih]

/-- C8: `RVFunctions.from_partition` on a string-outcome instance raises
`AlphabetExhausted` when the partition has more than 62 groups; otherwise the
returned random-variable function maps every outcome lying in group `i` — and
in no other group, the partition contract — to the 1-character string holding
the `i`-th character of the fixed 62-symbol alphabet. -/
theorem from_partition_str_spec (partition : List (List (List Char))) :
    (62 < partition.length →
      RVFunctions.from_partition_str partition = .error .alphabetExhausted)
    ∧ (partition.length ≤ 62 →
        ∀ i, i < partition.length →
        ∀ o, o ∈ partition.getD i [] →
        (∀ j, j < partition.length → j ≠ i → o ∉ partition.getD j []) →
        ∃ f, RVFunctions.from_partition_str partition = .ok f
          ∧ f o = some [partitionAlphabet.getD i ' ']) := by
  have h62 : partitionAlphabet.length = 62 := rfl
  constructor
  · intro hgt
    unfold RVFunctions.from_partition_str
    rw [if_pos (by rw [h62]; exact hgt)]
  · intro hle i hi o ho huniq
    unfold RVFunctions.from_partition_str
    rw [if_neg (by rw [h62]; omega)]
    simp only []
    refine ⟨_, rfl, ?_⟩
    have hvals : ∀ j, j < partition.length →
        ((partitionAlphabet.take partition.length).map (fun c => [c])).getD j []
          = [partitionAlphabet.getD j ' '] := by
      intro j hj
      have hjlen : j < ((partitionAlphabet.take partition.length).map (fun c => [c])).length := by
        rw [List.length_map, List.length_take, h62]
        omega
      have hj62 : j < partitionAlphabet.length := by rw [h62]; omega
      rw [List.getD_eq_getElem _ _ hjlen, List.getElem_map, List.getElem_take,
        List.getD_eq_getElem _ _ hj62]
    have hmap : ∀ (m0 : List Char → Option (List Char)),
        partition.enum.foldl
          (fun m p => p.2.foldl
            (fun m' o' => dictInsert m' (strCtor [o'])
              (((partitionAlphabet.take partition.length).map (fun c => [c])).getD p.1 [])) m)
          m0
        = (partition.enum.flatMap (fun p => p.2.map (fun o' => (strCtor [o'],
            ((partitionAlphabet.take partition.length).map (fun c => [c])).getD p.1 [])))).foldl
            (fun m p => dictInsert m p.1 p.2) m0 := by
      intro m0
      rw [← foldl_flatMap_dictInsert]
      congr 1
      funext m p
      rw [List.foldl_map]
    rw [hmap]
    apply foldl_dictInsert_allsame
    · refine ⟨(strCtor [o],
        ((partitionAlphabet.take partition.length).map (fun c => [c])).getD i []), ?_,
        strCtor_single o⟩
      rw [List.mem_flatMap]
      refine ⟨(i, partition.getD i []), ?_, List.mem_map.mpr ⟨o, ho, rfl⟩⟩
      rw [List.mem_enum_iff_get?]
      show partition.get? i = some (partition.getD i [])
      rw [List.get?_eq_getElem?, List.getElem?_eq_getElem hi, List.getD_eq_getElem _ _ hi]
    · intro p hp hpkey
      obtain ⟨q, hq, hpq⟩ := List.mem_flatMap.mp hp
      obtain ⟨o', ho', rfl⟩ := List.mem_map.mp hpq
      have hq1 : partition.get? q.1 = some q.2 := List.mem_enum_iff_get?.mp hq
      obtain ⟨hqlt, hqget⟩ := List.get?_eq_some.mp hq1
      have hq2 : q.2 = partition.getD q.1 [] := by
        rw [← hqget, List.getD_eq_getElem _ _ hqlt, List.get_eq_getElem]
      have hkey : o' = o := by
        rw [strCtor_single] at hpkey
        exact hpkey
      have hoq : o ∈ partition.getD q.1 [] := by
        rw [← hq2, ← hkey]
        exact ho'
      have hqi : q.1 = i := by
        by_contra hne
        exact huniq q.1 hqlt hne hoq
      show ((partitionAlphabet.take partition.length).map (fun c => [c])).getD q.1 []
        = [partitionAlphabet.getD i ' ']
      rw [hqi, hvals i hi]

/-- Witness for C8 at concrete inputs: a 63-group partition raises, and the
partition pairing equal bits against unequal bits maps the outcome 01 of group
1 to the string 1. -/
theorem from_partition_str_spec_witness :
    RVFunctions.from_partition_str (List.replicate 63 ([] : List (List Char)))
        = .error .alphabetExhausted
    ∧ ∃ f, RVFunctions.from_partition_str
          [[['0', '0'], ['1', '1']], [['0', '1'], ['1', '0']]] = .ok f
        ∧ f ['0', '1'] = some ['1'] := by
  constructor
  · exact (from_partition_str_spec _).1 (by simp)
  · obtain ⟨f, hf, hfo⟩ := (from_partition_str_spec
      [[['0', '0'], ['1', '1']], [['0', '1'], ['1', '0']]]).2 (by decide) 1 (by decide)
      ['0', '1'] (by decide)
      (by
        intro j hj hne
        have hj2 : j < 2 := by simpa using hj
        interval_cases j
        · decide
        · exact absurd rfl hne)
    exact ⟨f, hf, hfo.trans (by with_unfolding_all rfl)⟩

theorem mapM_option_eq_filterMap {γ β : Type} (f : γ → Option β) (l : List γ)
    (h : ∀ x ∈ l, (f x).isSome) : l.mapM f = some (l.filterMap f) := by
  induction l with
  | nil => rfl
  | cons x xs ih =>
    obtain ⟨a, ha⟩ := Option.isSome_iff_exists.mp (h x (by simp))
    rw [List.mapM_cons, ha, ih (fun y hy => h y (by simp [hy])), List.filterMap_cons, ha]
    rfl

/-- C9: for a hex string (every character a base-16 digit), `from_hexes`
returns on the string-outcome instance the function giving the 1-character
string 1 exactly on the outcomes equal to an `L`-wide zero-padded binary
expansion of one of the hex digits and 0 on every other outcome, and on the
integer-tuple instance the function giving the 1-tuple 1 exactly on the
integer conversions of those expansions and the 1-tuple 0 elsewhere. -/
theorem from_hexes_spec (L : ℕ) (hexes : List Char)
    (hhex : ∀ c ∈ hexes, (hexDigitVal c).isSome) :
    ∃ fs fi, RVFunctions.from_hexes_str L hexes = .ok fs
      ∧ RVFunctions.from_hexes_int L hexes = .ok fi
      ∧ (∀ o : List Char,
          (fs o = ['1'] ↔ ∃ c ∈ hexes, ∃ v, hexDigitVal c = some v ∧ o = paddedBin L v)
          ∧ (fs o = ['0'] ↔
              ¬ ∃ c ∈ hexes, ∃ v, hexDigitVal c = some v ∧ o = paddedBin L v))
      ∧ (∀ o : List Int,
          (fi o = [1] ↔ ∃ c ∈ hexes, ∃ v, hexDigitVal c = some v
            ∧ o = (paddedBin L v).map digitVal)
          ∧ (fi o = [0] ↔ ¬ ∃ c ∈ hexes, ∃ v, hexDigitVal c = some v
            ∧ o = (paddedBin L v).map digitVal)) := by
  have hmapM := mapM_option_eq_filterMap hexDigitVal hexes hhex
  have hmemS : ∀ o : List Char,
      o ∈ (hexes.filterMap hexDigitVal).map (paddedBin L)
        ↔ ∃ c ∈ hexes, ∃ v, hexDigitVal c = some v ∧ o = paddedBin L v := by
    intro o
    rw [List.mem_map]
    constructor
    · rintro ⟨v, hv, rfl⟩
      obtain ⟨c, hc, hcv⟩ := List.mem_filterMap.mp hv
      exact ⟨c, hc, v, hcv, rfl⟩
    · rintro ⟨c, hc, v, hcv, rfl⟩
      exact ⟨v, List.mem_filterMap.mpr ⟨c, hc, hcv⟩, rfl⟩
  have hmemI : ∀ o : List Int,
      o ∈ ((hexes.filterMap hexDigitVal).map (paddedBin L)).map (fun s => s.map digitVal)
        ↔ ∃ c ∈ hexes, ∃ v, hexDigitVal c = some v ∧ o = (paddedBin L v).map digitVal := by
    intro o
    rw [List.mem_map]
    constructor
    · rintro ⟨s, hs, rfl⟩
      obtain ⟨c, hc, v, hcv, rfl⟩ := (hmemS s).mp hs
      exact ⟨c, hc, v, hcv, rfl⟩
    · rintro ⟨c, hc, v, hcv, rfl⟩
      exact ⟨paddedBin L v, (hmemS _).mpr ⟨c, hc, v, hcv, rfl⟩, rfl⟩
  have h01 : (['0'] : List Char) ≠ ['1'] := by decide
  have h10 : (['1'] : List Char) ≠ ['0'] := by decide
  have hi01 : ([0] : List Int) ≠ [1] := by decide
  have hi10 : ([1] : List Int) ≠ [0] := by decide
  refine ⟨fun o => if o ∈ (hexes.filterMap hexDigitVal).map (paddedBin L)
      then ['1'] else ['0'],
    fun o => if o ∈ ((hexes.filterMap hexDigitVal).map (paddedBin L)).map
        (fun s => s.map digitVal)
      then [(1 : Int)] else [0], ?_, ?_, ?_, ?_⟩
  · unfold RVFunctions.from_hexes_str
    rw [hmapM]
  · unfold RVFunctions.from_hexes_int
    rw [hmapM]
  · intro o
    simp only []
    by_cases hmem : o ∈ (hexes.filterMap hexDigitVal).map (paddedBin L)
    · rw [if_pos hmem]
      exact ⟨⟨fun _ => (hmemS o).mp hmem, fun _ => rfl⟩,
        ⟨fun h => absurd h h10, fun h => absurd ((hmemS o).mp hmem) h⟩⟩
    · rw [if_neg hmem]
      exact ⟨⟨fun h => absurd h h01, fun h => absurd ((hmemS o).mpr h) hmem⟩,
        ⟨fun _ => fun h => hmem ((hmemS o).mpr h), fun _ => rfl⟩⟩
  · intro o
    simp only []
    by_cases hmem : o ∈ ((hexes.filterMap hexDigitVal).map (paddedBin L)).map
        (fun s => s.map digitVal)
    · rw [if_pos hmem]
      exact ⟨⟨fun _ => (hmemI o).mp hmem, fun _ => rfl⟩,
        ⟨fun h => absurd h hi10, fun h => absurd ((hmemI o).mp hmem) h⟩⟩
    · rw [if_neg hmem]
      exact ⟨⟨fun h => absurd h hi01, fun h => absurd ((hmemI o).mpr h) hmem⟩,
        ⟨fun _ => fun h => hmem ((hmemI o).mpr h), fun _ => rfl⟩⟩

/-- Witness for C9 at a concrete input: reference length 3 and hex string 27,
the docstring example, with patterns 010 and 111. -/
theorem from_hexes_spec_witness :
    ∃ fs fi, RVFunctions.from_hexes_str 3 ['2', '7'] = .ok fs
      ∧ RVFunctions.from_hexes_int 3 ['2', '7'] = .ok fi
      ∧ fs ['0', '1', '0'] = ['1'] ∧ fs ['0', '0', '0'] = ['0']
      ∧ fi [1, 1, 1] = [1] := by
  obtain ⟨fs, fi, hfs, hfi, hstr, hint⟩ := from_hexes_spec 3 ['2', '7'] (by decide)
  refine ⟨fs, fi, hfs, hfi, ?_, ?_, ?_⟩
  · exact (hstr ['0', '1', '0']).1.mpr
      ⟨'2', by decide, 2, by decide, by with_unfolding_all decide⟩
  · apply (hstr ['0', '0', '0']).2.mpr
    rintro ⟨c, hc, v, hv, ho⟩
    fin_cases hc
    · rw [show hexDigitVal '2' = some 2 from by decide] at hv
      have hv2 : v = 2 := (Option.some.inj hv).symm
      subst hv2
      exact absurd ho (by with_unfolding_all decide)
    · rw [show hexDigitVal '7' = some 7 from by decide] at hv
      have hv7 : v = 7 := (Option.some.inj hv).symm
      subst hv7
      exact absurd ho (by with_unfolding_all decide)
  · exact (hint [1, 1, 1]).1.mpr
      ⟨'7', by decide, 7, by decide, by with_unfolding_all decide⟩
